import Mathlib

/-
Verification of the content-merge and configuration-patch engine of the
containerized-Quartz-for-teachers build scripts.

The Python sources are shallowly embedded:
  * raw text is `List Char`; files read with `readlines` are `List (List Char)`;
  * the frontmatter metadata table of a Markdown document is an ordered
    association list `List (String × String)` (python dict, insertion order);
  * the per-course source trees on disk are association lists from relative
    paths (`List String`, one component per segment) to file contents;
  * each regex-based patch operation is hand-compiled to an explicit scanner
    with the same leftmost / lazy / all-occurrences semantics as the
    corresponding `re` pattern.
-/

/-! ## Basic text utilities -/

/-- Does `s` start with the literal character sequence `p`? -/
def startsWithChars : List Char → List Char → Bool
  | [], _ => true
  | _ :: _, [] => false
  | p :: ps, c :: cs => p = c && startsWithChars ps cs

/-- Python's `pat in s` substring test. -/
def hasSub (pat : List Char) : List Char → Bool
  | [] => startsWithChars pat []
  | c :: rest => startsWithChars pat (c :: rest) || hasSub pat rest

/-- Does `s` end with the literal character sequence `sfx` (Python `str.endswith`)? -/
def endsWithChars (sfx s : List Char) : Bool :=
  startsWithChars sfx.reverse s.reverse

/-- Strip a literal from the front of `s`, returning the remainder on success. -/
def dropLitC : List Char → List Char → Option (List Char)
  | [], s => some s
  | _ :: _, [] => none
  | p :: ps, c :: cs => if p = c then dropLitC ps cs else none

/-- Python `str.isspace` (the whitespace set of CPython, covering ASCII
whitespace and the Unicode space separators). -/
def isPySpace (c : Char) : Bool :=
  (9 ≤ c.toNat && c.toNat ≤ 13) || (28 ≤ c.toNat && c.toNat ≤ 31) ||
  c.toNat = 32 || c.toNat = 0x85 || c.toNat = 0xA0 || c.toNat = 0x1680 ||
  (0x2000 ≤ c.toNat && c.toNat ≤ 0x200A) || c.toNat = 0x2028 ||
  c.toNat = 0x2029 || c.toNat = 0x202F || c.toNat = 0x205F || c.toNat = 0x3000

/-- Python `str.strip()` under an explicit whitespace predicate. -/
def pyStripWith (sp : Char → Bool) (s : List Char) : List Char :=
  ((s.dropWhile sp).reverse.dropWhile sp).reverse

/-- Python `str.strip()` with the standard whitespace set. -/
def pyStrip (s : List Char) : List Char := pyStripWith isPySpace s

/-! ## Frontmatter Rewriter (`process_frontmatter` in build_site.py)

The metadata of a parsed document is an ordered key/value table.  Assigning
`post[k] = v` replaces the first binding of `k` in place, or appends a new
binding; `del` removes bindings; membership and reads use the first binding. -/

/-- Ordered metadata table of a parsed frontmatter block. -/
abbrev Meta := List (String × String)

/-- First-binding lookup (python dict read). -/
def lookupMeta : Meta → String → Option String
  | [], _ => none
  | e :: r, k => if e.1 = k then some e.2 else lookupMeta r k

/-- In-place update of the first binding of `k`, appending when absent
(python dict assignment). -/
def setMeta : Meta → String → String → Meta
  | [], k, v => [(k, v)]
  | e :: r, k, v => if e.1 = k then (k, v) :: r else e :: setMeta r k v

/-- `re.match(fam + r"\d+", k)`: does `k` start with the family name followed
by at least one decimal digit?  (`re.match` anchors at the start only, so
trailing characters after the digits are accepted.) -/
def sectionQualified (fam : String) (k : String) : Bool :=
  match dropLitC fam.data k.data with
  | some (c :: _) => c.isDigit
  | _ => false

/-- A key deleted by the rewriter's cleanup loop:
`re.match(r"draftSection\d+", key) or re.match(r"createdSection\d+", key)`. -/
def isSectionKey (k : String) : Bool :=
  sectionQualified ("draftSection") k || sectionQualified ("createdSection") k

/-- `process_frontmatter` on the parsed metadata of a Markdown document, for
target section `sec`:  copy `draftSection{sec}` to `draft` and
`createdSection{sec}` to `created` when present, then delete every key
matching either section-qualified pattern. -/
def rewriteFM (sec : Nat) (fm : Meta) : Meta :=
  let draftKey := "draftSection" ++ toString sec
  let createdKey := "createdSection" ++ toString sec
  let fm1 := match lookupMeta fm draftKey with
    | some v => setMeta fm ("draft") v
    | none => fm
  let fm2 := match lookupMeta fm1 createdKey with
    | some v => setMeta fm1 ("created") v
    | none => fm1
  fm2.filter (fun e => !isSectionKey e.1)

/-! ### Lookup lemmas for the metadata table -/

theorem lookupMeta_setMeta_self (m : Meta) (k v : String) :
    lookupMeta (setMeta m k v) k = some v := by
  induction m with
  | nil => simp [setMeta, lookupMeta]
  | cons e r ih =>
    by_cases h : e.1 = k
    · simp [setMeta, h, lookupMeta]
    · simp [setMeta, h, lookupMeta, ih]

theorem lookupMeta_setMeta_ne (m : Meta) (k v k' : String) (h : k' ≠ k) :
    lookupMeta (setMeta m k v) k' = lookupMeta m k' := by
  have hk : k ≠ k' := fun hh => h hh.symm
  induction m with
  | nil => simp [setMeta, lookupMeta, hk]
  | cons e r ih =>
    by_cases he : e.1 = k
    · have h1 : e.1 ≠ k' := by rw [he]; exact hk
      simp [setMeta, he, lookupMeta, hk, h1]
    · simp [setMeta, he, lookupMeta, ih]

theorem lookupMeta_filter_out (m : Meta) (p : String → Bool) (k : String)
    (hk : p k = true) :
    lookupMeta (m.filter (fun e => !p e.1)) k = none := by
  induction m with
  | nil => simp [lookupMeta]
  | cons e r ih =>
    by_cases he : p e.1 = true
    · simp [List.filter, he, ih]
    · have hne : e.1 ≠ k := by
        intro hh; rw [hh] at he; exact he hk
      simp [List.filter, Bool.not_eq_true', Bool.eq_false_iff.mpr he, lookupMeta, hne, ih]

theorem lookupMeta_filter_keep (m : Meta) (p : String → Bool) (k : String)
    (hk : p k = false) :
    lookupMeta (m.filter (fun e => !p e.1)) k = lookupMeta m k := by
  induction m with
  | nil => simp [lookupMeta]
  | cons e r ih =>
    by_cases he : e.1 = k
    · subst he
      simp [List.filter, hk, lookupMeta, ih]
    · by_cases hp : p e.1 = true
      · simp [List.filter, hp, lookupMeta, he, ih]
      · simp [List.filter, Bool.not_eq_true', Bool.eq_false_iff.mpr hp, lookupMeta, he, ih]

theorem dropLitC_self (l r : List Char) : dropLitC l (l ++ r) = some r := by
  induction l with
  | nil => rfl
  | cons c cs ih => simp [dropLitC, ih]

theorem sectionQualified_append (fam d : String)
    (hne : d.data ≠ []) (hdig : ∀ c ∈ d.data, c.isDigit = true) :
    sectionQualified fam (fam ++ d) = true := by
  unfold sectionQualified
  rw [String.data_append, dropLitC_self]
  match hd : d.data with
  | [] => exact absurd hd hne
  | c :: rest =>
    have : c.isDigit = true := hdig c (by rw [hd]; exact List.mem_cons_self c rest)
    simp [this]

/-- Strings with distinct first characters stay distinct after appending. -/
theorem append_head_ne (a t b : String) (c d : Char) (ra rb : List Char)
    (ha : a.data = c :: ra) (hb : b.data = d :: rb) (hcd : c ≠ d) :
    (a ++ t) ≠ b := by
  intro h
  have h2 : (a ++ t).data = b.data := by rw [h]
  rw [String.data_append, ha, hb, List.cons_append] at h2
  injection h2 with h3 _
  exact hcd h3

theorem createdKey_ne_draft (t : String) : ("createdSection" ++ t) ≠ "draft" :=
  append_head_ne _ t _ 'c' 'd' _ _ rfl rfl (by decide)

/-- C4: for every parsed frontmatter table and target section N, the rewriter
removes every `draftSection<digits>` / `createdSection<digits>` key (for any
numeral, not just N), and when `draftSectionN` / `createdSectionN` were
present their values end up in the canonical `draft` / `created` fields. -/
theorem frontmatter_convergence (sec : Nat) (fm : Meta) :
    (∀ d : String, d.data ≠ [] → (∀ c ∈ d.data, c.isDigit = true) →
        lookupMeta (rewriteFM sec fm) ("draftSection" ++ d) = none ∧
        lookupMeta (rewriteFM sec fm) ("createdSection" ++ d) = none) ∧
    (∀ v, lookupMeta fm ("draftSection" ++ toString sec) = some v →
        lookupMeta (rewriteFM sec fm) ("draft") = some v) ∧
    (∀ v, lookupMeta fm ("createdSection" ++ toString sec) = some v →
        lookupMeta (rewriteFM sec fm) ("created") = some v) := by
  refine ⟨?_, ?_, ?_⟩
  · intro d hne hdig
    constructor
    · simp only [rewriteFM]
      apply lookupMeta_filter_out
      simp [isSectionKey, sectionQualified_append ("draftSection") d hne hdig]
    · simp only [rewriteFM]
      apply lookupMeta_filter_out
      simp [isSectionKey, sectionQualified_append ("createdSection") d hne hdig]
  · intro v hv
    simp only [rewriteFM, hv]
    cases h2 : lookupMeta (setMeta fm ("draft") v) ("createdSection" ++ toString sec) with
    | none =>
      rw [lookupMeta_filter_keep _ _ _ (by decide)]
      exact lookupMeta_setMeta_self fm _ v
    | some w =>
      rw [lookupMeta_filter_keep _ _ _ (by decide),
        lookupMeta_setMeta_ne _ _ _ _ (by decide)]
      exact lookupMeta_setMeta_self fm _ v
  · intro v hv
    cases h1 : lookupMeta fm ("draftSection" ++ toString sec) with
    | none =>
      simp only [rewriteFM, h1, hv]
      rw [lookupMeta_filter_keep _ _ _ (by decide)]
      exact lookupMeta_setMeta_self fm _ v
    | some w =>
      have hcv : lookupMeta (setMeta fm ("draft") w) ("createdSection" ++ toString sec)
          = some v := by
        rw [lookupMeta_setMeta_ne _ _ _ _ (createdKey_ne_draft (toString sec))]
        exact hv
      simp only [rewriteFM, h1, hcv]
      rw [lookupMeta_filter_keep _ _ _ (by decide)]
      exact lookupMeta_setMeta_self _ _ v

/-- Sample metadata table used to instantiate `frontmatter_convergence`. -/
def demoFM : Meta :=
  [("title", "T"), ("draftSection2", "true"), ("createdSection2", "2024-01-01"),
   ("draftSection1", "false"), ("customKey", "keep")]

/-- Witness: `frontmatter_convergence` applied to a concrete document with
section-qualified keys for sections 1 and 2, rewritten for section 2. -/
theorem frontmatter_convergence_witness :
    lookupMeta (rewriteFM 2 demoFM) ("draftSection" ++ "7") = none ∧
    lookupMeta (rewriteFM 2 demoFM) ("createdSection" ++ "7") = none ∧
    lookupMeta (rewriteFM 2 demoFM) ("draft") = some ("true") ∧
    lookupMeta (rewriteFM 2 demoFM) ("created") = some ("2024-01-01") :=
  ⟨((frontmatter_convergence 2 demoFM).1 "7" (by decide) (by decide)).1,
   ((frontmatter_convergence 2 demoFM).1 "7" (by decide) (by decide)).2,
   (frontmatter_convergence 2 demoFM).2.1 "true" (by decide),
   (frontmatter_convergence 2 demoFM).2.2 "2024-01-01" (by decide)⟩

/-- Metadata table exhibiting the prefix-match behaviour of the cleanup loop. -/
def demoFrameFM : Meta :=
  [("draftSection2abc", "x"), ("title", "t"), ("created", "c0")]

/-- C10 counterexample: the key `draftSection2abc` is not `draftSectionM` for
any numeral M (its tail `2abc` is not all digits), yet `process_frontmatter`
deletes it, because `re.match` only anchors at the start of the key. -/
theorem frontmatter_frame_counterexample :
    lookupMeta demoFrameFM ("draftSection2abc") = some ("x") ∧
    ("2abc".data.all Char.isDigit) = false ∧
    lookupMeta (rewriteFM 1 demoFrameFM) ("draftSection2abc") = none := by decide

/-- C10 (amended): when the target section's qualified keys are absent the
canonical `draft` and `created` fields are left unchanged; keys are deleted
exactly when they begin with `draftSection` or `createdSection` followed by a
digit (prefix match), and every other key keeps its value. -/
theorem frontmatter_frame (sec : Nat) (fm : Meta)
    (hd : lookupMeta fm ("draftSection" ++ toString sec) = none)
    (hc : lookupMeta fm ("createdSection" ++ toString sec) = none) :
    (∀ k, isSectionKey k = false →
        lookupMeta (rewriteFM sec fm) k = lookupMeta fm k) ∧
    (∀ k, isSectionKey k = true → lookupMeta (rewriteFM sec fm) k = none) ∧
    lookupMeta (rewriteFM sec fm) ("draft") = lookupMeta fm ("draft") ∧
    lookupMeta (rewriteFM sec fm) ("created") = lookupMeta fm ("created") := by
  refine ⟨?_, ?_, ?_, ?_⟩
  · intro k hk
    simp only [rewriteFM, hd, hc]
    exact lookupMeta_filter_keep fm _ k hk
  · intro k hk
    simp only [rewriteFM, hd, hc]
    exact lookupMeta_filter_out fm _ k hk
  · simp only [rewriteFM, hd, hc]
    exact lookupMeta_filter_keep fm _ _ (by decide)
  · simp only [rewriteFM, hd, hc]
    exact lookupMeta_filter_keep fm _ _ (by decide)

/-- Witness: `frontmatter_frame` at a concrete table with no section-1 keys. -/
theorem frontmatter_frame_witness :
    lookupMeta (rewriteFM 1 demoFrameFM) ("title") = lookupMeta demoFrameFM ("title") ∧
    lookupMeta (rewriteFM 1 demoFrameFM) ("draftSection2abc") = none ∧
    lookupMeta (rewriteFM 1 demoFrameFM) ("created") = lookupMeta demoFrameFM ("created") :=
  ⟨(frontmatter_frame 1 demoFrameFM (by decide) (by decide)).1 "title" (by decide),
   (frontmatter_frame 1 demoFrameFM (by decide) (by decide)).2.1 "draftSection2abc" (by decide),
   (frontmatter_frame 1 demoFrameFM (by decide) (by decide)).2.2.2⟩

/-! ## Page-title patch (`update_page_title` in build_site.py)

The artifact is handled as the list of its lines (`readlines`); a line is
rewritten whenever it contains the textual anchor `pageTitle:`; the file is
written back only when some line matched, and that match flag (`updated`) is
what the operation reports. -/

/-- The anchor `update_page_title` searches each line for. -/
def pageTitleAnchor : List Char := ("pageTitle:").data

/-- Python `str.upper` (course codes are ASCII). -/
def asciiUpper (s : List Char) : List Char := s.map Char.toUpper

/-- `f'{safe_emoji} {course_code.upper()} S{section_number}'` with
`safe_emoji = (emoji or "📚").strip()`. -/
def newPageTitle (courseCode : List Char) (sectionNumber : Nat)
    (emoji : List Char) : List Char :=
  let safeEmoji := pyStrip (if emoji = [] then ("📚").data else emoji)
  safeEmoji ++ (" ").data ++ asciiUpper courseCode ++ (" S").data
    ++ (toString sectionNumber).data

/-- The replacement line `f'  pageTitle: "{new_title}",\n'`. -/
def pageTitleLine (t : List Char) : List Char :=
  ("  pageTitle: \"").data ++ t ++ ("\",\n").data

/-- Per-line action of `update_page_title`. -/
def pageTitleStep (t : List Char) (l : List Char) : List Char :=
  if hasSub pageTitleAnchor l then pageTitleLine t else l

/-- `update_page_title`: rewrite every line containing the anchor, write the
file back only when some line matched, and report the match flag. -/
def updatePageTitle (lines : List (List Char)) (courseCode : List Char)
    (sectionNumber : Nat) (emoji : List Char) : List (List Char) × Bool :=
  let t := newPageTitle courseCode sectionNumber emoji
  let newLines := lines.map (pageTitleStep t)
  let updated := lines.any (fun l => hasSub pageTitleAnchor l)
  (if updated then newLines else lines, updated)

theorem startsWithChars_append (p a b : List Char)
    (h : startsWithChars p a = true) : startsWithChars p (a ++ b) = true := by
  induction p generalizing a with
  | nil => rfl
  | cons x ps ih =>
    cases a with
    | nil => exact absurd h (by simp [startsWithChars])
    | cons c cs =>
      simp only [startsWithChars, Bool.and_eq_true] at h
      simp only [List.cons_append, startsWithChars, Bool.and_eq_true]
      exact ⟨h.1, ih cs h.2⟩

theorem hasSub_nil_pat (s : List Char) : hasSub [] s = true := by
  cases s with
  | nil => rfl
  | cons c r => simp [hasSub, startsWithChars]

theorem hasSub_append_left (pat a b : List Char)
    (h : hasSub pat a = true) : hasSub pat (a ++ b) = true := by
  induction a with
  | nil =>
    cases pat with
    | nil => exact hasSub_nil_pat b
    | cons x ps => exact absurd h (by simp [hasSub, startsWithChars])
  | cons c cs ih =>
    simp only [hasSub, Bool.or_eq_true] at h
    rcases h with h | h
    · simp only [List.cons_append, hasSub, Bool.or_eq_true]
      exact Or.inl (startsWithChars_append pat (c :: cs) b h)
    · simp only [List.cons_append, hasSub, Bool.or_eq_true]
      exact Or.inr (ih h)

theorem anchor_in_pageTitleLine (t : List Char) :
    hasSub pageTitleAnchor (pageTitleLine t) = true := by
  unfold pageTitleLine
  rw [List.append_assoc]
  exact hasSub_append_left _ _ _ (by decide)

theorem hasSub_pageTitleStep (t l : List Char) :
    hasSub pageTitleAnchor (pageTitleStep t l) = hasSub pageTitleAnchor l := by
  by_cases h : hasSub pageTitleAnchor l = true
  · simp [pageTitleStep, h, anchor_in_pageTitleLine]
  · simp [pageTitleStep, h]

theorem any_map_pageTitleStep (t : List Char) (ls : List (List Char)) :
    ((ls.map (pageTitleStep t)).any (fun l => hasSub pageTitleAnchor l))
      = ls.any (fun l => hasSub pageTitleAnchor l) := by
  induction ls with
  | nil => rfl
  | cons x xs ih => simp [List.any_cons, hasSub_pageTitleStep, ih]

theorem pageTitleStep_idem (t l : List Char) :
    pageTitleStep t (pageTitleStep t l) = pageTitleStep t l := by
  by_cases h : hasSub pageTitleAnchor l = true
  · simp [pageTitleStep, h, anchor_in_pageTitleLine]
  · simp [pageTitleStep, h]

theorem map_pageTitleStep_idem (t : List Char) (ls : List (List Char)) :
    ((ls.map (pageTitleStep t)).map (pageTitleStep t)) = ls.map (pageTitleStep t) := by
  induction ls with
  | nil => rfl
  | cons x xs ih => simp [List.map_cons, pageTitleStep_idem, ih]

/-- Artifact text on which the page-title operation fires. -/
def demoConfigLines : List (List Char) :=
  [("const config = \x7b\n").data, ("  pageTitle: \"Quartz\",\n").data,
   ("\x7d\n").data]

/-- C1 counterexample: applying `update_page_title` a second time to the
output of a first application leaves the text byte-identical, but the
operation reports `changed = True` (the `updated` flag is set whenever a
`pageTitle:` line is present, not only when the text differs), contradicting
the claimed `changed = False`. -/
theorem patch_changed_flag_counterexample :
    (updatePageTitle (updatePageTitle demoConfigLines ("ics3u").data 1
        ("📚").data).1 ("ics3u").data 1 ("📚").data).2 = true ∧
    (updatePageTitle (updatePageTitle demoConfigLines ("ics3u").data 1
        ("📚").data).1 ("ics3u").data 1 ("📚").data).1
      = (updatePageTitle demoConfigLines ("ics3u").data 1 ("📚").data).1 := by
  decide

/-- C1 (amended): for the page-title operation, a second application with the
same parameters leaves the artifact byte-identical to the first application's
output, and reports the same `changed` flag as the first application (`True`
whenever a `pageTitle:` line is present, not `False`). -/
theorem update_page_title_second_application (lines : List (List Char))
    (cc : List Char) (n : Nat) (emoji : List Char) :
    (updatePageTitle (updatePageTitle lines cc n emoji).1 cc n emoji).1
      = (updatePageTitle lines cc n emoji).1 ∧
    (updatePageTitle (updatePageTitle lines cc n emoji).1 cc n emoji).2
      = (updatePageTitle lines cc n emoji).2 := by
  cases h : lines.any (fun l => hasSub pageTitleAnchor l) with
  | false => simp [updatePageTitle, h]
  | true =>
    have h2 : ((lines.map (pageTitleStep (newPageTitle cc n emoji))).any
        (fun l => hasSub pageTitleAnchor l)) = true := by
      rw [any_map_pageTitleStep]; exact h
    simp [updatePageTitle, h, h2, map_pageTitleStep_idem]
    intro a _
    exact pageTitleStep_idem _ a

/-! ## Setup flow: hidden / expandable selection (setup_course.py)

`prompt_select_multiple(prompt, options, default)` returns the default
selection verbatim when the user enters a blank line, and otherwise the
option at each valid 1-based index typed by the user.  `setup_course` then
filters the visible items, prompts for the expandable ones, and finally
appends `"Media"` to the hidden list unconditionally. -/

/-- `prompt_select_multiple`: `none` models a blank entry (default returned
unchanged, unfiltered); `some idxs` models an explicit numeric entry, kept
when `0 <= i-1 < len(options)`.  (The retry loop on unparsable entries is
modelled by taking the entry that finally parses.) -/
def promptSelectMultiple (options defaultSel : List String)
    (entry : Option (List Int)) : List String :=
  match entry with
  | none => defaultSel
  | some idxs => idxs.filterMap (fun i =>
      if h : 0 ≤ i - 1 ∧ (i - 1).toNat < options.length then
        some (options.get ⟨(i - 1).toNat, h.2⟩)
      else none)

/-- Lines 1078–1113 of `setup_course`: build `all_selected`, prompt for the
hidden items over it, filter the visible items, prompt for the expandable
items over those, then force `"Media"` into the hidden list. -/
def setupHiddenExpandable (sharedFolders sharedFiles perSectionFolders
    perSectionFiles defaultHidden defaultExpandable : List String)
    (hiddenEntry expandEntry : Option (List Int)) : List String × List String :=
  let allSelected := sharedFolders ++ sharedFiles ++ perSectionFolders ++ perSectionFiles
  let hiddenItems := promptSelectMultiple allSelected defaultHidden hiddenEntry
  let visibleItems := allSelected.filter (fun x => decide (x ∉ hiddenItems))
  let expandableItems := promptSelectMultiple visibleItems defaultExpandable expandEntry
  let hiddenFinal :=
    if ("Media") ∈ hiddenItems then hiddenItems else hiddenItems ++ [("Media")]
  (hiddenFinal, expandableItems)

theorem mem_promptSelectMultiple (options d : List String) (l : List Int)
    (x : String) (hx : x ∈ promptSelectMultiple options d (some l)) :
    x ∈ options := by
  unfold promptSelectMultiple at hx
  rw [List.mem_filterMap] at hx
  obtain ⟨i, _, hi⟩ := hx
  by_cases h : 0 ≤ i - 1 ∧ (i - 1).toNat < options.length
  · rw [dif_pos h] at hi
    obtain rfl : options.get ⟨(i - 1).toNat, h.2⟩ = x := Option.some.inj hi
    exact options.get_mem _ _
  · rw [dif_neg h] at hi
    exact absurd hi (by simp)

/-- C5 counterexample: the configuration written by the setup flow for a
course whose only selected name is `Concepts` (the user explicitly hides it)
has `"Media"` in its hidden list, but `"Media"` is not in the union of the
shared/per-section folder and file lists — so hidden is not a subset of that
union. -/
theorem hidden_subset_counterexample :
    ("Media") ∈ (setupHiddenExpandable ["Concepts"] [] [] [] [] []
        (some [1]) (some [])).1 ∧
    ("Media") ∉ ((["Concepts"] : List String) ++ [] ++ [] ++ []) := by decide

/-- C5 (amended): for configurations in which the hidden and expandable
selections are explicit numeric selections and `"Media"` is not among the
selected names, every hidden item is either a selected name or the
automatically appended `"Media"`, and the expandable list is disjoint from
the hidden list. -/
theorem setup_hidden_expandable_invariants
    (sf sfi psf psfi dh de : List String) (l1 l2 : List Int)
    (hMedia : ("Media") ∉ sf ++ sfi ++ psf ++ psfi) :
    (∀ x ∈ (setupHiddenExpandable sf sfi psf psfi dh de
        (some l1) (some l2)).1,
        x ∈ sf ++ sfi ++ psf ++ psfi ∨ x = "Media") ∧
    (∀ x ∈ (setupHiddenExpandable sf sfi psf psfi dh de
        (some l1) (some l2)).2,
        x ∉ (setupHiddenExpandable sf sfi psf psfi dh de
        (some l1) (some l2)).1) := by
  simp only [setupHiddenExpandable]
  constructor
  · intro x hx
    by_cases hm : ("Media") ∈ promptSelectMultiple
        (sf ++ sfi ++ psf ++ psfi) dh (some l1)
    · rw [if_pos hm] at hx
      exact Or.inl (mem_promptSelectMultiple _ _ _ _ hx)
    · rw [if_neg hm] at hx
      rcases List.mem_append.mp hx with hx | hx
      · exact Or.inl (mem_promptSelectMultiple _ _ _ _ hx)
      · exact Or.inr (List.mem_singleton.mp hx)
  · intro x hx hmem
    have hvis : x ∈ (sf ++ sfi ++ psf ++ psfi).filter
        (fun y => decide (y ∉ promptSelectMultiple
          (sf ++ sfi ++ psf ++ psfi) dh (some l1))) :=
      mem_promptSelectMultiple _ _ _ _ hx
    rw [List.mem_filter] at hvis
    have hxAll : x ∈ sf ++ sfi ++ psf ++ psfi := hvis.1
    have hxNotHidden : x ∉ promptSelectMultiple
        (sf ++ sfi ++ psf ++ psfi) dh (some l1) := of_decide_eq_true hvis.2
    have hxNotMedia : x ≠ "Media" := fun hh => hMedia (hh ▸ hxAll)
    by_cases hm : ("Media") ∈ promptSelectMultiple
        (sf ++ sfi ++ psf ++ psfi) dh (some l1)
    · rw [if_pos hm] at hmem
      exact hxNotHidden hmem
    · rw [if_neg hm] at hmem
      rcases List.mem_append.mp hmem with hmem | hmem
      · exact hxNotHidden hmem
      · exact hxNotMedia (List.mem_singleton.mp hmem)

/-- Witness: `setup_hidden_expandable_invariants` at a concrete selection
(`Concepts` hidden explicitly, `Notes.md` chosen as expandable). -/
theorem setup_hidden_expandable_invariants_witness :
    (∀ x ∈ (setupHiddenExpandable ["Concepts"] ["Notes.md"] [] [] [] []
        (some [1]) (some [1])).1,
        x ∈ ["Concepts"] ++ ["Notes.md"] ++ [] ++ [] ∨ x = "Media") ∧
    (∀ x ∈ (setupHiddenExpandable ["Concepts"] ["Notes.md"] [] [] [] []
        (some [1]) (some [1])).2,
        x ∉ (setupHiddenExpandable ["Concepts"] ["Notes.md"] [] [] [] []
        (some [1]) (some [1])).1) :=
  setup_hidden_expandable_invariants ["Concepts"] ["Notes.md"] [] [] [] []
    [1] [1] (by decide)

/-! ## Single-emoji validator (`_looks_like_single_emoji` in setup_course.py)

Python's `str.isspace` / `str.isalnum` are Unicode classifications; the
embedding abstracts them as an explicit pair of character predicates and
proves the validator's behaviour for every such pair.  The concrete instance
`pyKinds` below is exact on every codepoint exercised by the claims (ASCII
letters, digits and whitespace; emoji and emoji modifiers are neither
alphanumeric nor whitespace in Python). -/

/-- The two character classifications the validator consults. -/
structure CharKinds where
  isSpace : Char → Bool
  isAlnum : Char → Bool

/-- The codepoints the validator skips when counting base characters:
variation selectors FE0E/FE0F, the zero-width joiner 200D, and the
Fitzpatrick skin-tone modifiers 1F3FB–1F3FF. -/
def isEmojiModifier (c : Char) : Bool :=
  c.toNat = 0xFE0E || c.toNat = 0xFE0F || c.toNat = 0x200D ||
  (0x1F3FB ≤ c.toNat && c.toNat ≤ 0x1F3FF)

/-- The validator's counting loop: skip modifiers, count base codepoints,
bail out early once the count exceeds one, and finally require exactly one. -/
def baseCountLoop : List Char → Nat → Bool
  | [], n => n == 1
  | c :: rest, n =>
    if isEmojiModifier c then baseCountLoop rest n
    else if n + 1 > 1 then false
    else baseCountLoop rest (n + 1)

/-- `_looks_like_single_emoji`: strip, reject empty or whitespace-containing
or alphanumeric-containing strings, then require exactly one base codepoint. -/
def looksLikeSingleEmoji (ck : CharKinds) (s0 : List Char) : Bool :=
  let s := pyStripWith ck.isSpace s0
  if s.isEmpty then false
  else if s.any ck.isSpace then false
  else if s.any ck.isAlnum then false
  else baseCountLoop s 0

/-- The acceptance condition exactly as the claim words it, as a predicate on
a candidate string: non-empty, no whitespace, no alphanumerics, and exactly
one base codepoint after ignoring the modifiers.  (Definition follows the
specification text, for comparison with the code's validator.) -/
def singleEmojiSpecCheck (ck : CharKinds) (s : List Char) : Bool :=
  !s.isEmpty && s.all (fun c => !ck.isSpace c) && s.all (fun c => !ck.isAlnum c)
    && (s.countP (fun c => !isEmojiModifier c) == 1)

/-- ASCII-exact instance of Python's `str.isspace` / `str.isalnum`. -/
def pyKinds : CharKinds :=
  { isSpace := isPySpace
    isAlnum := fun c =>
      ('0' ≤ c && c ≤ '9') || ('A' ≤ c && c ≤ 'Z') || ('a' ≤ c && c ≤ 'z') }

/-- C9 counterexample: `" 📚 "` contains whitespace, so the claim's
characterization rejects it, but the validator strips the candidate before
checking and accepts it. -/
theorem emoji_validator_counterexample :
    looksLikeSingleEmoji pyKinds (" 📚 ").data = true ∧
    singleEmojiSpecCheck pyKinds (" 📚 ").data = false := by decide

theorem baseCountLoop_eq (s : List Char) (n : Nat) :
    baseCountLoop s n = (n + s.countP (fun c => !isEmojiModifier c) == 1) := by
  induction s generalizing n with
  | nil => simp [baseCountLoop]
  | cons c rest ih =>
    by_cases hm : isEmojiModifier c = true
    · have hcp : (!isEmojiModifier c) = false := by rw [hm]; rfl
      simp [baseCountLoop, hm, List.countP_cons, hcp, ih]
    · have hcp : (!isEmojiModifier c) = true := by
        rw [Bool.eq_false_iff.mpr hm]; rfl
      by_cases hn : n + 1 > 1
      · have : n + (List.countP (fun c => !isEmojiModifier c) rest + 1) ≠ 1 := by omega
        simp [baseCountLoop, hm, hn, List.countP_cons, hcp, Nat.beq_eq_true_eq, this]
      · simp [baseCountLoop, hm, hn, List.countP_cons, hcp, ih, Nat.beq_eq_true_eq]
        omega

theorem all_not_eq_not_any (p : Char → Bool) (t : List Char) :
    t.all (fun c => !p c) = !(t.any p) := by
  induction t with
  | nil => rfl
  | cons c r ih => simp [List.all_cons, List.any_cons, ih]

/-- C9 (amended): the validator accepts exactly those candidates whose
whitespace-stripped form is non-empty, contains no whitespace and no
alphanumeric characters, and has exactly one base codepoint after ignoring
variation selectors, the zero-width joiner and skin-tone modifiers; in
particular `"AB"` and `"📚📚"` are rejected while `"📚"` and `"🧪"` are
accepted. -/
theorem emoji_validator_characterization :
    (∀ (ck : CharKinds) (s : List Char),
        looksLikeSingleEmoji ck s
          = singleEmojiSpecCheck ck (pyStripWith ck.isSpace s)) ∧
    looksLikeSingleEmoji pyKinds ("AB").data = false ∧
    looksLikeSingleEmoji pyKinds ("📚📚").data = false ∧
    looksLikeSingleEmoji pyKinds ("📚").data = true ∧
    looksLikeSingleEmoji pyKinds ("🧪").data = true := by
  refine ⟨?_, by decide, by decide, by decide, by decide⟩
  intro ck s
  unfold looksLikeSingleEmoji singleEmojiSpecCheck
  generalize pyStripWith ck.isSpace s = t
  rw [all_not_eq_not_any, all_not_eq_not_any]
  by_cases h1 : t.isEmpty <;> by_cases h2 : t.any ck.isSpace <;>
    by_cases h3 : t.any ck.isAlnum <;>
    simp [h1, h2, h3, baseCountLoop_eq]

/-! ## Content merge (`build_section_site`, lines 1086–1146 of build_site.py)

The output content tree and the two source trees are association lists from
relative paths (one component per segment) to file contents.  Copy steps are
sequential overwrites, so a later step wins at a colliding relative path. -/

/-- Relative path below a tree root, one component per segment. -/
abbrev FsPath := List String

/-- A file's contents: a Markdown document whose frontmatter parses, or any
other file (including a Markdown file whose metadata fails to parse, which
`process_frontmatter` reports and leaves untouched). -/
inductive FileContent where
  | doc : Meta → String → FileContent
  | raw : String → FileContent
deriving DecidableEq

/-- A directory tree as an association list of files. -/
abbrev FsTree := List (FsPath × FileContent)

/-- Read a file from a tree. -/
def lookupT : FsTree → FsPath → Option FileContent
  | [], _ => none
  | e :: r, p => if e.1 = p then some e.2 else lookupT r p

/-- Overwrite-or-create a file (filesystem copy-target semantics). -/
def setFile : FsTree → FsPath → FileContent → FsTree
  | [], p, c => [(p, c)]
  | e :: r, p, c => if e.1 = p then (p, c) :: r else e :: setFile r p c

/-- `file_path.suffix.lower() != ".md"` guard of `process_frontmatter`,
on one path component (pathlib semantics: the suffix starts at the last dot,
and a dot leading the whole name yields no suffix). -/
def isMdName (name : String) : Bool :=
  let r := name.data.reverse
  let pre := r.takeWhile (fun c => c ≠ '.')
  match r.drop pre.length with
  | '.' :: _ :: _ => (pre.reverse.map Char.toLower) == ('m' :: ['d'])
  | _ => false

/-- Is the copied file a Markdown file (by its final path component)? -/
def isMdPath (p : FsPath) : Bool :=
  match p.getLast? with
  | some n => isMdName n
  | none => false

/-- Copy destination contents after `process_frontmatter(dest, sec)`:
non-Markdown files and unparseable Markdown are untouched; parsed Markdown
gets its metadata rewritten. -/
def processFile (sec : Nat) (p : FsPath) (c : FileContent) : FileContent :=
  if isMdPath p then
    match c with
    | .doc fm body => .doc (rewriteFM sec fm) body
    | .raw s => .raw s
  else c

/-- The files `os.walk` yields below folder `f` of a source tree: entries
whose first component is `f`, with at least two components (a path `[f]`
would be a file named `f`, not a file inside the folder). -/
def folderEntries (t : FsTree) (f : String) : FsTree :=
  t.filter (fun e => decide (e.1.head? = some f ∧ 2 ≤ e.1.length))

/-- Shared-folder copy: walk the course-level folder, copying each file and
immediately rewriting the copy.  `os.walk` of a missing folder yields
nothing, silently. -/
def sharedFolderStep (sec : Nat) (courseTree : FsTree) (t : FsTree) (f : String) : FsTree :=
  (folderEntries courseTree f).foldl
    (fun acc e => setFile acc e.1 (processFile sec e.1 e.2)) t

/-- Shared-file copy: `if src.exists(): copy2; process_frontmatter`. -/
def sharedFileStep (sec : Nat) (courseTree : FsTree) (t : FsTree) (f : String) : FsTree :=
  match lookupT courseTree [f] with
  | some c => setFile t [f] (processFile sec [f] c)
  | none => t

/-- `shutil.copytree(..., dirs_exist_ok=True)`: raw copy of a folder's files
over whatever the destination already holds. -/
def copyRawEntries (t : FsTree) (es : FsTree) : FsTree :=
  es.foldl (fun acc e => setFile acc e.1 e.2) t

/-- The `os.walk(dest)` pass after a per-section copytree: rewrite every file
currently under the folder, including files placed there by earlier steps. -/
def processUnder (sec : Nat) (f : String) (t : FsTree) : FsTree :=
  t.map (fun e => if e.1.head? = some f then (e.1, processFile sec e.1 e.2) else e)

/-- Per-section-folder copy, guarded by `if src.exists()` (the guard covers
both the copy and the rewriting walk). -/
def perFolderStep (sec : Nat) (sectionTree : FsTree) (sectionDirs : List String)
    (t : FsTree) (f : String) : FsTree :=
  if f ∈ sectionDirs then
    processUnder sec f (copyRawEntries t (folderEntries sectionTree f))
  else t

/-- Per-section-file copy, guarded by `if src.exists()`. -/
def perFileStep (sec : Nat) (sectionTree : FsTree) (t : FsTree) (f : String) : FsTree :=
  match lookupT sectionTree [f] with
  | some c => setFile t [f] (processFile sec [f] c)
  | none => t

/-- The shared / per-section name lists of `course_config.json`. -/
structure MergeConfig where
  sharedFolders : List String
  sharedFiles : List String
  perSectionFolders : List String
  perSectionFiles : List String

/-- The content-merge portion of `build_section_site`: start from a fresh
content root, copy the section's own index document first, then shared
folders, shared files, per-section folders and per-section files, in the
source's order.  `sectionDirs` lists the directories that exist under the
section's source directory (the `src.exists()` guard for folder copies). -/
def buildContentTree (sec : Nat) (cfg : MergeConfig)
    (courseTree sectionTree : FsTree) (sectionDirs : List String) : FsTree :=
  let t1 : FsTree := match lookupT sectionTree [("index.md")] with
    | some c => setFile [] [("index.md")] (processFile sec [("index.md")] c)
    | none => []
  let t2 := cfg.sharedFolders.foldl (sharedFolderStep sec courseTree) t1
  let t3 := cfg.sharedFiles.foldl (sharedFileStep sec courseTree) t2
  let t4 := cfg.perSectionFolders.foldl (perFolderStep sec sectionTree sectionDirs) t3
  cfg.perSectionFiles.foldl (perFileStep sec sectionTree) t4

/-- The messages the merge portion prints, in order.  A configured source
that is missing on disk produces no message at all: the `if src.exists()`
guards have no else branch, and `os.walk` of a missing folder yields
nothing, silently. -/
def mergeLog (cfg : MergeConfig) (courseTree sectionTree : FsTree)
    (sectionDirs : List String) : List String :=
  (match lookupT sectionTree [("index.md")] with
    | some _ => ["  🏠 Copied section index.md to content/index.md"]
    | none => ["⚠️ Section index.md not found — site may not render correctly."]) ++
  ["📥 Copying shared folders into content..."] ++
  cfg.sharedFolders.map (fun f => "🔍 Processing: " ++ f) ++
  ["📥 Copying shared files into content..."] ++
  cfg.sharedFiles.filterMap (fun f =>
    match lookupT courseTree [f] with
    | some _ => some ("  📄 Copied shared file: " ++ f)
    | none => none) ++
  ["📥 Copying per-section folders..."] ++
  cfg.perSectionFolders.filterMap (fun f =>
    if f ∈ sectionDirs then some ("  📁 Copied per-section folder: " ++ f)
    else none) ++
  ["📥 Copying per-section files..."] ++
  cfg.perSectionFiles.filterMap (fun f =>
    match lookupT sectionTree [f] with
    | some _ => some ("  📄 Copied per-section file: " ++ f)
    | none => none) ++
  ["✅ Copied course_config.json to output directory"]

/-! ### Lookup lemmas for the merge -/

theorem lookupT_setFile (t : FsTree) (p : FsPath) (c : FileContent) (q : FsPath) :
    lookupT (setFile t p c) q = if q = p then some c else lookupT t q := by
  induction t with
  | nil =>
    by_cases h : q = p
    · simp [setFile, lookupT, h]
    · have h2 : ¬ p = q := fun hh => h hh.symm
      simp [setFile, lookupT, h, h2]
  | cons e r ih =>
    by_cases he : e.1 = p
    · by_cases h : q = p
      · simp [setFile, he, lookupT, h]
      · have h2 : ¬ p = q := fun hh => h hh.symm
        simp [setFile, he, lookupT, h, h2, he ▸ h2]
    · by_cases hq : e.1 = q
      · have h : ¬ q = p := fun hh => he (hq.trans hh)
        simp [setFile, he, lookupT, hq, h]
      · simp [setFile, he, lookupT, hq, ih]

theorem lookupT_mem (t : FsTree) (q : FsPath) (c : FileContent)
    (h : lookupT t q = some c) : (q, c) ∈ t := by
  induction t with
  | nil => exact absurd h (by simp [lookupT])
  | cons e r ih =>
    by_cases he : e.1 = q
    · rw [lookupT, if_pos he] at h
      obtain rfl : e.2 = c := Option.some.inj h
      have he2 : e = (q, e.2) := Prod.ext he rfl
      exact List.mem_cons.mpr (Or.inl he2.symm)
    · rw [lookupT, if_neg he] at h
      exact List.mem_cons_of_mem e (ih h)

theorem keys_nodup_value_eq (t : FsTree) (hnd : (t.map Prod.fst).Nodup)
    (q : FsPath) (c1 c2 : FileContent) (h1 : (q, c1) ∈ t) (h2 : (q, c2) ∈ t) :
    c1 = c2 := by
  induction t with
  | nil => exact absurd h1 (List.not_mem_nil _)
  | cons e r ih =>
    rw [List.map_cons, List.nodup_cons] at hnd
    rcases List.mem_cons.mp h1 with h1 | h1 <;> rcases List.mem_cons.mp h2 with h2 | h2
    · exact congrArg Prod.snd (h1.trans h2.symm)
    · have hq : q = e.1 := congrArg Prod.fst h1
      exact absurd (hq ▸ List.mem_map_of_mem Prod.fst h2) hnd.1
    · have hq : q = e.1 := congrArg Prod.fst h2
      exact absurd (hq ▸ List.mem_map_of_mem Prod.fst h1) hnd.1
    · exact ih hnd.2 h1 h2

theorem lookupT_copyRaw_not_mem (es : FsTree) (t : FsTree) (q : FsPath)
    (h : ∀ e ∈ es, e.1 ≠ q) :
    lookupT (copyRawEntries t es) q = lookupT t q := by
  induction es generalizing t with
  | nil => rfl
  | cons e r ih =>
    have step : copyRawEntries t (e :: r) = copyRawEntries (setFile t e.1 e.2) r := rfl
    rw [step, ih _ (fun x hx => h x (List.mem_cons_of_mem e hx)), lookupT_setFile,
      if_neg (fun hh => h e (List.mem_cons_self e r) hh.symm)]

theorem lookupT_copyRaw_mem (es : FsTree) (t : FsTree) (q : FsPath) (c : FileContent)
    (hmem : (q, c) ∈ es) (huniq : ∀ e ∈ es, e.1 = q → e.2 = c) :
    lookupT (copyRawEntries t es) q = some c := by
  induction es generalizing t with
  | nil => exact absurd hmem (List.not_mem_nil _)
  | cons e r ih =>
    have step : copyRawEntries t (e :: r) = copyRawEntries (setFile t e.1 e.2) r := rfl
    by_cases hr : (q, c) ∈ r
    · exact step ▸ ih (setFile t e.1 e.2) hr (fun x hx => huniq x (List.mem_cons_of_mem e hx))
    · have he : e = (q, c) := by
        rcases List.mem_cons.mp hmem with h | h
        · exact h.symm
        · exact absurd h hr
      by_cases hkeys : ∀ x ∈ r, x.1 ≠ q
      · rw [step, lookupT_copyRaw_not_mem r _ q hkeys, lookupT_setFile, he]
        simp
      · push_neg at hkeys
        obtain ⟨x, hx, hxq⟩ := hkeys
        have : x.2 = c := huniq x (List.mem_cons_of_mem e hx) hxq
        have : (q, c) ∈ r := by
          have hxx : x = (q, c) := Prod.ext hxq this
          exact hxx ▸ hx
        exact absurd this hr

theorem lookupT_processUnder (sec : Nat) (f : String) (t : FsTree) (q : FsPath) :
    lookupT (processUnder sec f t) q =
      if q.head? = some f then (lookupT t q).map (processFile sec q)
      else lookupT t q := by
  induction t with
  | nil => by_cases h : q.head? = some f <;> simp [processUnder, lookupT, h]
  | cons e r ih =>
    have hstep : processUnder sec f (e :: r)
        = (if e.1.head? = some f then (e.1, processFile sec e.1 e.2) else e)
          :: processUnder sec f r := rfl
    by_cases he : e.1 = q
    · by_cases hq : q.head? = some f
      · have hef : e.1.head? = some f := by rw [he]; exact hq
        have h1 : lookupT (processUnder sec f (e :: r)) q
            = some (processFile sec e.1 e.2) := by
          rw [hstep, if_pos hef]; simp [lookupT, he]
        rw [h1, if_pos hq]
        simp [lookupT, he]
      · have hef : ¬ e.1.head? = some f := by rw [he]; exact hq
        have h1 : lookupT (processUnder sec f (e :: r)) q = some e.2 := by
          rw [hstep, if_neg hef]; simp [lookupT, he]
        rw [h1, if_neg hq]
        simp [lookupT, he]
    · by_cases hef : e.1.head? = some f
      · have h1 : lookupT (processUnder sec f (e :: r)) q
            = lookupT (processUnder sec f r) q := by
          rw [hstep, if_pos hef]; simp [lookupT, he]
        rw [h1, ih]
        simp [lookupT, he]
      · have h1 : lookupT (processUnder sec f (e :: r)) q
            = lookupT (processUnder sec f r) q := by
          rw [hstep, if_neg hef]; simp [lookupT, he]
        rw [h1, ih]
        simp [lookupT, he]

theorem perFolderStep_sets (sec : Nat) (st : FsTree) (dirs : List String)
    (t : FsTree) (x : String) (rest : FsPath) (cP : FileContent)
    (hdir : x ∈ dirs) (hnd : (st.map Prod.fst).Nodup)
    (hmem : lookupT st (x :: rest) = some cP) (hrest : rest ≠ []) :
    lookupT (perFolderStep sec st dirs t x) (x :: rest)
      = some (processFile sec (x :: rest) cP) := by
  have hm : (x :: rest, cP) ∈ st := lookupT_mem st _ cP hmem
  have hfe : (x :: rest, cP) ∈ folderEntries st x := by
    rw [folderEntries, List.mem_filter]
    refine ⟨hm, ?_⟩
    have h2 : 2 ≤ (x :: rest).length := by
      cases rest with
      | nil => exact absurd rfl hrest
      | cons a b => simp
    exact decide_eq_true ⟨rfl, h2⟩
  have huniq : ∀ e ∈ folderEntries st x, e.1 = x :: rest → e.2 = cP := by
    intro e he hk
    have he' : e ∈ st := (List.mem_filter.mp he).1
    have hmm : (x :: rest, e.2) ∈ st := by
      have hee : e = (x :: rest, e.2) := Prod.ext hk rfl
      exact hee ▸ he'
    exact keys_nodup_value_eq st hnd _ e.2 cP hmm hm
  have hhead : (x :: rest).head? = some x := rfl
  rw [perFolderStep, if_pos hdir, lookupT_processUnder, if_pos hhead,
    lookupT_copyRaw_mem _ t _ cP hfe huniq]
  rfl

theorem perFolderStep_preserve (sec : Nat) (st : FsTree) (dirs : List String)
    (t : FsTree) (g : String) (q : FsPath) (hq : q.head? ≠ some g) :
    lookupT (perFolderStep sec st dirs t g) q = lookupT t q := by
  by_cases hdir : g ∈ dirs
  · rw [perFolderStep, if_pos hdir, lookupT_processUnder, if_neg hq,
      lookupT_copyRaw_not_mem]
    intro e he hk
    have hh := of_decide_eq_true (List.mem_filter.mp he).2
    exact hq (hk ▸ hh.1)
  · rw [perFolderStep, if_neg hdir]

theorem foldl_perFolder_maintain (sec : Nat) (st : FsTree) (dirs : List String)
    (x : String) (rest : FsPath) (cP : FileContent)
    (hdir : x ∈ dirs) (hnd : (st.map Prod.fst).Nodup)
    (hmem : lookupT st (x :: rest) = some cP) (hrest : rest ≠ [])
    (l : List String) :
    ∀ t : FsTree, lookupT t (x :: rest) = some (processFile sec (x :: rest) cP) →
      lookupT (l.foldl (perFolderStep sec st dirs) t) (x :: rest)
        = some (processFile sec (x :: rest) cP) := by
  induction l with
  | nil => intro t ht; exact ht
  | cons g r ih =>
    intro t ht
    rw [List.foldl_cons]
    apply ih
    by_cases hg : g = x
    · subst hg
      exact perFolderStep_sets sec st dirs t g rest cP hdir hnd hmem hrest
    · rw [perFolderStep_preserve sec st dirs t g _ ?_]
      · exact ht
      · intro hh
        exact hg (Option.some.inj hh).symm

theorem foldl_perFolder_sets (sec : Nat) (st : FsTree) (dirs : List String)
    (x : String) (rest : FsPath) (cP : FileContent)
    (hdir : x ∈ dirs) (hnd : (st.map Prod.fst).Nodup)
    (hmem : lookupT st (x :: rest) = some cP) (hrest : rest ≠ [])
    (l : List String) (hx : x ∈ l) :
    ∀ t : FsTree, lookupT (l.foldl (perFolderStep sec st dirs) t) (x :: rest)
      = some (processFile sec (x :: rest) cP) := by
  induction l with
  | nil => exact absurd hx (List.not_mem_nil x)
  | cons g r ih =>
    intro t
    rw [List.foldl_cons]
    rcases List.mem_cons.mp hx with hg | hg
    · have hset := perFolderStep_sets sec st dirs t g rest cP (hg ▸ hdir) hnd
        (hg ▸ hmem) hrest
      have := foldl_perFolder_maintain sec st dirs x rest cP hdir hnd hmem hrest r
        (perFolderStep sec st dirs t g)
      apply this
      rw [hg]
      exact hset
    · exact ih hg (perFolderStep sec st dirs t g)

theorem foldl_perFileStep_preserve (sec : Nat) (st : FsTree) (l : List String)
    (q : FsPath) (hq : q.length ≠ 1) :
    ∀ t : FsTree, lookupT (l.foldl (perFileStep sec st) t) q = lookupT t q := by
  induction l with
  | nil => intro t; rfl
  | cons f r ih =>
    intro t
    rw [List.foldl_cons, ih]
    have hne : q ≠ [f] := by intro hh; rw [hh] at hq; exact hq rfl
    cases h : lookupT st [f] with
    | none => simp [perFileStep, h]
    | some c => simp [perFileStep, h, lookupT_setFile, hne]

/-- C2: when a shared folder and a per-section folder share a name and both
contain a file at the same relative path, the merged output holds the
per-section version (rewritten for the section), never the shared one: the
per-section copy runs after the shared copy and overwrites it. -/
theorem merge_per_section_overrides_shared (sec : Nat) (cfg : MergeConfig)
    (courseTree sectionTree : FsTree) (sectionDirs : List String)
    (x : String) (rest : FsPath) (cS cP : FileContent)
    (hnd : (sectionTree.map Prod.fst).Nodup)
    (hShared : x ∈ cfg.sharedFolders)
    (hcS : lookupT courseTree (x :: rest) = some cS)
    (hPer : x ∈ cfg.perSectionFolders)
    (hdir : x ∈ sectionDirs)
    (hcP : lookupT sectionTree (x :: rest) = some cP)
    (hrest : rest ≠ []) :
    lookupT (buildContentTree sec cfg courseTree sectionTree sectionDirs)
        (x :: rest) = some (processFile sec (x :: rest) cP) := by
  have hlen : (x :: rest).length ≠ 1 := by
    cases rest with
    | nil => exact absurd rfl hrest
    | cons a b => simp
  simp only [buildContentTree]
  rw [foldl_perFileStep_preserve sec sectionTree _ _ hlen]
  exact foldl_perFolder_sets sec sectionTree sectionDirs x rest cP hdir hnd hcP
    hrest _ hPer _

/-- Course-level tree used by the merge witnesses: a shared `Concepts` folder
holding `notes.md`. -/
def demoCourseTree : FsTree :=
  [(["Concepts", "notes.md"], FileContent.doc [("title", "Shared")] "shared body")]

/-- Section tree used by the merge witnesses: the section index plus the
section's own `Concepts/notes.md`. -/
def demoSectionTree : FsTree :=
  [([("index.md")], FileContent.doc [("title", "Home")] "welcome"),
   (["Concepts", "notes.md"], FileContent.doc [("title", "Per")] "per body")]

/-- Witness: `merge_per_section_overrides_shared` at a concrete configuration
in which `Concepts` is both shared and per-section and both trees hold
`Concepts/notes.md`. -/
theorem merge_per_section_overrides_shared_witness :
    lookupT (buildContentTree 1 ⟨["Concepts"], [], ["Concepts"], []⟩
        demoCourseTree demoSectionTree ["Concepts"]) ["Concepts", "notes.md"]
      = some (processFile 1 ["Concepts", "notes.md"]
          (FileContent.doc [("title", "Per")] "per body")) :=
  merge_per_section_overrides_shared 1 ⟨["Concepts"], [], ["Concepts"], []⟩
    demoCourseTree demoSectionTree ["Concepts"] "Concepts" ["notes.md"]
    (FileContent.doc [("title", "Shared")] "shared body")
    (FileContent.doc [("title", "Per")] "per body")
    (by decide) (by decide) (by decide) (by decide) (by decide) (by decide)
    (by decide)

theorem foldl_setFileProc_preserve (sec : Nat) (es : FsTree) (t : FsTree)
    (q : FsPath) (h : ∀ e ∈ es, e.1 ≠ q) :
    lookupT (es.foldl (fun acc e => setFile acc e.1 (processFile sec e.1 e.2)) t) q
      = lookupT t q := by
  induction es generalizing t with
  | nil => rfl
  | cons e r ih =>
    rw [List.foldl_cons, ih _ (fun x hx => h x (List.mem_cons_of_mem e hx)),
      lookupT_setFile, if_neg (fun hh => h e (List.mem_cons_self e r) hh.symm)]

theorem sharedFolderStep_preserve_len1 (sec : Nat) (ct : FsTree) (t : FsTree)
    (f : String) (q : FsPath) (hq : q.length ≤ 1) :
    lookupT (sharedFolderStep sec ct t f) q = lookupT t q := by
  rw [sharedFolderStep]
  apply foldl_setFileProc_preserve
  intro e he hk
  have hh := of_decide_eq_true (List.mem_filter.mp he).2
  rw [hk] at hh
  exact absurd hh.2 (by omega)

theorem foldl_sharedFolder_preserve_len1 (sec : Nat) (ct : FsTree)
    (l : List String) (q : FsPath) (hq : q.length ≤ 1) :
    ∀ t : FsTree, lookupT (l.foldl (sharedFolderStep sec ct) t) q = lookupT t q := by
  induction l with
  | nil => intro t; rfl
  | cons f r ih =>
    intro t
    rw [List.foldl_cons, ih, sharedFolderStep_preserve_len1 sec ct t f q hq]

theorem foldl_sharedFile_keep_index (sec : Nat) (ct : FsTree)
    (l : List String) (v : FileContent) :
    ∀ t : FsTree,
      (∀ f ∈ l, f = "index.md" → lookupT ct [("index.md")] = none) →
      lookupT t [("index.md")] = some v →
      lookupT (l.foldl (sharedFileStep sec ct) t) [("index.md")] = some v := by
  induction l with
  | nil => intro t _ ht; exact ht
  | cons f r ih =>
    intro t hmiss ht
    rw [List.foldl_cons]
    apply ih _ (fun g hg => hmiss g (List.mem_cons_of_mem f hg))
    by_cases hf : f = "index.md"
    · subst hf
      rw [sharedFileStep, hmiss _ (List.mem_cons_self _ r) rfl]
      exact ht
    · have hne : ([("index.md")] : FsPath) ≠ [f] := by
        intro hh
        exact hf (List.cons.inj hh).1.symm
      cases h : lookupT ct [f] with
      | none => simp only [sharedFileStep, h]; exact ht
      | some c =>
        simp only [sharedFileStep, h]
        rw [lookupT_setFile, if_neg hne]
        exact ht

theorem foldl_perFolder_keep_index (sec : Nat) (st : FsTree)
    (dirs : List String) (hdirs : ("index.md") ∉ dirs) (l : List String)
    (v : FileContent) :
    ∀ t : FsTree, lookupT t [("index.md")] = some v →
      lookupT (l.foldl (perFolderStep sec st dirs) t) [("index.md")] = some v := by
  induction l with
  | nil => intro t ht; exact ht
  | cons g r ih =>
    intro t ht
    rw [List.foldl_cons]
    apply ih
    by_cases hgi : g = "index.md"
    · subst hgi
      rw [perFolderStep, if_neg hdirs]
      exact ht
    · have hne : ([("index.md")] : FsPath).head? ≠ some g :=
        fun hh => hgi (Option.some.inj hh).symm
      rw [perFolderStep_preserve sec st dirs t g _ hne]
      exact ht

theorem foldl_perFile_keep_index (sec : Nat) (st : FsTree) (cidx : FileContent)
    (hidx : lookupT st [("index.md")] = some cidx) (l : List String) :
    ∀ t : FsTree,
      lookupT t [("index.md")] = some (processFile sec [("index.md")] cidx) →
      lookupT (l.foldl (perFileStep sec st) t) [("index.md")]
        = some (processFile sec [("index.md")] cidx) := by
  induction l with
  | nil => intro t ht; exact ht
  | cons f r ih =>
    intro t ht
    rw [List.foldl_cons]
    apply ih
    by_cases hf : f = "index.md"
    · subst hf
      simp only [perFileStep, hidx]
      rw [lookupT_setFile, if_pos rfl]
    · have hne : ([("index.md")] : FsPath) ≠ [f] := by
        intro hh
        exact hf (List.cons.inj hh).1.symm
      cases h : lookupT st [f] with
      | none => simp only [perFileStep, h]; exact ht
      | some c =>
        simp only [perFileStep, h]
        rw [lookupT_setFile, if_neg hne]
        exact ht

/-- Course tree whose root holds a shared `index.md`. -/
def demoCourseIdx : FsTree :=
  [([("index.md")], FileContent.doc [("title", "Shared Home")] "shared home")]

/-- C3 counterexample: the section's own index document is copied first, not
last; configuring a shared file named `index.md` makes the shared version
overwrite it, so the top-level `index.md` of the output equals the shared
file, not the section's own index document. -/
theorem index_overwritten_counterexample :
    lookupT (buildContentTree 1 ⟨[], [("index.md")], [], []⟩ demoCourseIdx
        demoSectionTree []) [("index.md")]
      = some (processFile 1 [("index.md")]
          (FileContent.doc [("title", "Shared Home")] "shared home")) ∧
    processFile 1 [("index.md")]
        (FileContent.doc [("title", "Shared Home")] "shared home")
      ≠ processFile 1 [("index.md")]
          (FileContent.doc [("title", "Home")] "welcome") := by decide

/-- C3 (amended): the section's own index document is composed first, before
the shared and per-section copies; the top-level `index.md` of the output
equals the section's own (rewritten) index document provided no shared file
named `index.md` exists (and no section directory is named `index.md`); a
per-section file named `index.md` copies the same section index document, so
the equality still holds then. -/
theorem section_index_survives (sec : Nat) (cfg : MergeConfig)
    (courseTree sectionTree : FsTree) (sectionDirs : List String)
    (cidx : FileContent)
    (hidx : lookupT sectionTree [("index.md")] = some cidx)
    (hnoshared : ("index.md") ∉ cfg.sharedFiles ∨
      lookupT courseTree [("index.md")] = none)
    (hnodir : ("index.md") ∉ sectionDirs) :
    lookupT (buildContentTree sec cfg courseTree sectionTree sectionDirs)
        [("index.md")] = some (processFile sec [("index.md")] cidx) := by
  simp only [buildContentTree, hidx]
  apply foldl_perFile_keep_index sec sectionTree cidx hidx
  apply foldl_perFolder_keep_index sec sectionTree sectionDirs hnodir
  apply foldl_sharedFile_keep_index sec courseTree cfg.sharedFiles _ _ ?_
  · rw [foldl_sharedFolder_preserve_len1 sec courseTree cfg.sharedFolders
      [("index.md")] (by simp), lookupT_setFile, if_pos rfl]
  · intro f hf hfi
    rcases hnoshared with h | h
    · exact absurd (hfi ▸ hf) h
    · exact h

/-- Witness: `section_index_survives` at the concrete merge configuration of
the other merge witnesses. -/
theorem section_index_survives_witness :
    lookupT (buildContentTree 1 ⟨["Concepts"], [], ["Concepts"], []⟩
        demoCourseTree demoSectionTree ["Concepts"]) [("index.md")]
      = some (processFile 1 [("index.md")]
          (FileContent.doc [("title", "Home")] "welcome")) :=
  section_index_survives 1 ⟨["Concepts"], [], ["Concepts"], []⟩ demoCourseTree
    demoSectionTree ["Concepts"] (FileContent.doc [("title", "Home")] "welcome")
    (by decide) (Or.inl (by decide)) (by decide)

/-! ### Missing configured sources (C8) -/

theorem foldl_skip_middle {α : Type} (φ : FsTree → α → FsTree)
    (pre post : List α) (f : α) (hid : ∀ t : FsTree, φ t f = t) (t : FsTree) :
    (pre ++ f :: post).foldl φ t = (pre ++ post).foldl φ t := by
  rw [List.foldl_append, List.foldl_append, List.foldl_cons, hid]

theorem sharedFolderStep_id (sec : Nat) (ct : FsTree) (f : String)
    (h : folderEntries ct f = []) (t : FsTree) :
    sharedFolderStep sec ct t f = t := by
  rw [sharedFolderStep, h]
  rfl

theorem sharedFileStep_id (sec : Nat) (ct : FsTree) (f : String)
    (h : lookupT ct [f] = none) (t : FsTree) :
    sharedFileStep sec ct t f = t := by
  simp only [sharedFileStep, h]

theorem perFolderStep_id (sec : Nat) (st : FsTree) (dirs : List String)
    (f : String) (h : f ∉ dirs) (t : FsTree) :
    perFolderStep sec st dirs t f = t := by
  rw [perFolderStep, if_neg h]

theorem perFileStep_id (sec : Nat) (st : FsTree) (f : String)
    (h : lookupT st [f] = none) (t : FsTree) :
    perFileStep sec st t f = t := by
  simp only [perFileStep, h]

/-- C8 (amended): a configured shared or per-section folder or file whose
source does not exist on disk is skipped silently — the merged output equals
the output for the configuration without that item, the remaining items are
handled identically, and the (total) merge never fails; no warning is
emitted for the missing item (see the counterexample). -/
theorem merge_missing_source_skipped (sec : Nat)
    (courseTree sectionTree : FsTree) (sectionDirs : List String) :
    (∀ (sfi psf psfi pre post : List String) (f : String),
        folderEntries courseTree f = [] →
        buildContentTree sec ⟨pre ++ f :: post, sfi, psf, psfi⟩
            courseTree sectionTree sectionDirs
          = buildContentTree sec ⟨pre ++ post, sfi, psf, psfi⟩
            courseTree sectionTree sectionDirs) ∧
    (∀ (sf psf psfi pre post : List String) (f : String),
        lookupT courseTree [f] = none →
        buildContentTree sec ⟨sf, pre ++ f :: post, psf, psfi⟩
            courseTree sectionTree sectionDirs
          = buildContentTree sec ⟨sf, pre ++ post, psf, psfi⟩
            courseTree sectionTree sectionDirs) ∧
    (∀ (sf sfi psfi pre post : List String) (f : String),
        f ∉ sectionDirs →
        buildContentTree sec ⟨sf, sfi, pre ++ f :: post, psfi⟩
            courseTree sectionTree sectionDirs
          = buildContentTree sec ⟨sf, sfi, pre ++ post, psfi⟩
            courseTree sectionTree sectionDirs) ∧
    (∀ (sf sfi psf pre post : List String) (f : String),
        lookupT sectionTree [f] = none →
        buildContentTree sec ⟨sf, sfi, psf, pre ++ f :: post⟩
            courseTree sectionTree sectionDirs
          = buildContentTree sec ⟨sf, sfi, psf, pre ++ post⟩
            courseTree sectionTree sectionDirs) := by
  refine ⟨?_, ?_, ?_, ?_⟩
  · intro sfi psf psfi pre post f h
    simp only [buildContentTree]
    rw [foldl_skip_middle _ pre post f (sharedFolderStep_id sec courseTree f h)]
  · intro sf psf psfi pre post f h
    simp only [buildContentTree]
    rw [foldl_skip_middle _ pre post f (sharedFileStep_id sec courseTree f h)]
  · intro sf sfi psfi pre post f h
    simp only [buildContentTree]
    rw [foldl_skip_middle _ pre post f (perFolderStep_id sec sectionTree sectionDirs f h)]
  · intro sf sfi psf pre post f h
    simp only [buildContentTree]
    rw [foldl_skip_middle _ pre post f (perFileStep_id sec sectionTree f h)]

/-- Witness: `merge_missing_source_skipped` applied to a configuration whose
only shared file, `Notes.md`, is absent from the course tree. -/
theorem merge_missing_source_skipped_witness :
    buildContentTree 1 ⟨[], [("Notes.md")], [], []⟩ [] demoSectionTree []
      = buildContentTree 1 ⟨[], [], [], []⟩ [] demoSectionTree [] :=
  (merge_missing_source_skipped 1 [] demoSectionTree []).2.1
    [] [] [] [] [] "Notes.md" (by decide)

/-- C8 counterexample: the missing shared file `Notes.md` is skipped and the
merge proceeds unchanged, but no message of the merge log mentions it — the
skip is silent, not accompanied by a warning. -/
theorem merge_missing_warning_counterexample :
    lookupT ([] : FsTree) [("Notes.md")] = none ∧
    buildContentTree 1 ⟨[], [("Notes.md")], [], []⟩ [] demoSectionTree []
      = buildContentTree 1 ⟨[], [], [], []⟩ [] demoSectionTree [] ∧
    (mergeLog ⟨[], [("Notes.md")], [], []⟩ [] demoSectionTree []).all
      (fun m => !hasSub ("Notes.md").data m.data) = true := by decide

/-! ## Reading-time patch (`patch_content_meta_options` in build_site.py)

The operation rewrites the first
`const defaultOptions: ContentMetaOptions = { ... }` block of the artifact
(the lazy body stops at the first closing brace), setting every
`showReadingTime: <bool>` and `showComma: <bool>` field inside the body to
the configured preference.  The regex is hand-compiled into a scanner with
the same leftmost / lazy semantics. -/

/-- `\s*` of the pattern. -/
def skipWsStar (s : List Char) : List Char := s.dropWhile isPySpace

/-- `\s+` of the pattern. -/
def skipWsPlus (s : List Char) : Option (List Char) :=
  match s with
  | c :: r => if isPySpace c then some (r.dropWhile isPySpace) else none
  | [] => none

/-- Head of the outer pattern:
`const\s+defaultOptions\s*:\s*ContentMetaOptions\s*=\s*` and the opening
brace. -/
def matchCMHead (s : List Char) : Option (List Char) :=
  (dropLitC ("const").data s).bind (fun s1 =>
  (skipWsPlus s1).bind (fun s2 =>
  (dropLitC ("defaultOptions").data s2).bind (fun s3 =>
  (dropLitC (":").data (skipWsStar s3)).bind (fun s4 =>
  (dropLitC ("ContentMetaOptions").data (skipWsStar s4)).bind (fun s5 =>
  (dropLitC ("=").data (skipWsStar s5)).bind (fun s6 =>
  dropLitC ("\x7b").data (skipWsStar s6)))))))

/-- Lazy body group `([\s\S]*?)` up to the first closing brace (group 3). -/
def splitAtBrace : List Char → Option (List Char × List Char)
  | [] => none
  | c :: r =>
    if c = '\x7d' then some ([], r)
    else (splitAtBrace r).map (fun p => (c :: p.1, p.2))

/-- `(showReadingTime\s*:\s*)(true|false)` anchored at the head of `s`:
returns the preserved group-1 text, the boolean that matched, and the
remainder after it. -/
def matchBoolField (name : List Char) (s : List Char) :
    Option (List Char × Bool × List Char) :=
  match dropLitC name s with
  | none => none
  | some s1 =>
    match dropLitC (":").data (skipWsStar s1) with
    | none => none
    | some s2 =>
      match dropLitC ("true").data (skipWsStar s2) with
      | some s4 => some (s.take (s.length - (skipWsStar s2).length), true, s4)
      | none =>
        match dropLitC ("false").data (skipWsStar s2) with
        | some s4 => some (s.take (s.length - (skipWsStar s2).length), false, s4)
        | none => none

theorem dropLitC_length (l s r : List Char) (h : dropLitC l s = some r) :
    r.length + l.length = s.length := by
  induction l generalizing s with
  | nil =>
    simp only [dropLitC, Option.some.injEq] at h
    subst h
    simp
  | cons p ps ih =>
    cases s with
    | nil => exact absurd h (by simp [dropLitC])
    | cons c cs =>
      by_cases hp : p = c
      · rw [dropLitC, if_pos hp] at h
        have := ih cs h
        simp only [List.length_cons]
        omega
      · rw [dropLitC, if_neg hp] at h
        exact absurd h (by simp)

theorem dropWhile_length_le (p : Char → Bool) (s : List Char) :
    (s.dropWhile p).length ≤ s.length := by
  induction s with
  | nil => simp
  | cons c r ih =>
    by_cases hc : p c
    · rw [List.dropWhile_cons, if_pos hc]
      simp only [List.length_cons]
      omega
    · rw [List.dropWhile_cons, if_neg hc]

theorem matchBoolField_rest_lt (name s : List Char) (g : List Char) (b : Bool)
    (r : List Char) (h : matchBoolField name s = some (g, b, r)) :
    r.length < s.length := by
  unfold matchBoolField at h
  split at h
  next => exact absurd h (by simp)
  next s1 h1 =>
    split at h
    next => exact absurd h (by simp)
    next s2 h2 =>
      have hs1 : s1.length ≤ s.length := by
        have := dropLitC_length name s s1 h1; omega
      have hw1 : (skipWsStar s1).length ≤ s1.length := dropWhile_length_le _ _
      have hs2 : s2.length + 1 = (skipWsStar s1).length := by
        have := dropLitC_length ((":").data) (skipWsStar s1) s2 h2
        simpa using this
      have hw2 : (skipWsStar s2).length ≤ s2.length := dropWhile_length_le _ _
      split at h
      next s4 h3 =>
        have hr : r = s4 := by
          injection h with h'
          exact (congrArg (fun z => z.2.2) h').symm
        have h4 := dropLitC_length (("true").data) (skipWsStar s2) s4 h3
        have h4' : (("true").data).length = 4 := rfl
        subst hr
        omega
      next h3 =>
        split at h
        next s4 h5 =>
          have hr : r = s4 := by
            injection h with h'
            exact (congrArg (fun z => z.2.2) h').symm
          have h6 := dropLitC_length (("false").data) (skipWsStar s2) s4 h5
          have h6' : (("false").data).length = 5 := rfl
          subst hr
          omega
        next => exact absurd h (by simp)

/-- `re.sub(..., count=0)` over the body: replace every non-overlapping
leftmost occurrence of the boolean field, preserving the group-1 text.
Structured with explicit fuel so that the scanner reduces inside the kernel;
`matchBoolField_rest_lt` shows each match consumes at least one character,
so fuel equal to the text length never runs out. -/
def subBoolAllAux (name d : List Char) : Nat → List Char → List Char
  | _, [] => []
  | 0, s => s
  | fuel + 1, c :: rest =>
    match matchBoolField name (c :: rest) with
    | some (g, _, r) => g ++ d ++ subBoolAllAux name d fuel r
    | none => c :: subBoolAllAux name d fuel rest

/-- All-occurrences boolean-field substitution over a body text. -/
def subBoolAll (name d : List Char) (s : List Char) : List Char :=
  subBoolAllAux name d s.length s

/-- Leftmost occurrence of the outer pattern: returns the text before the
match, the matched head (group 1, preserved), the lazy body (group 2) and
the text after the closing brace. -/
def findCMBlock : List Char → Option (List Char × List Char × List Char × List Char)
  | [] => none
  | c :: rest =>
    match matchCMHead (c :: rest) with
    | some afterHead =>
      match splitAtBrace afterHead with
      | some (body, post) =>
        some ([], (c :: rest).take ((c :: rest).length - afterHead.length),
          body, post)
      | none =>
        (findCMBlock rest).map (fun x => (c :: x.1, x.2.1, x.2.2.1, x.2.2.2))
    | none =>
      (findCMBlock rest).map (fun x => (c :: x.1, x.2.1, x.2.2.1, x.2.2.2))

/-- `patch_content_meta_options` as a pure text transformation: rewrite both
boolean fields of the first `defaultOptions` block to the configured
preference; leave the artifact unchanged when the block is absent. -/
def patchContentMetaOptions (content : List Char) (showReadingTime : Bool) :
    List Char :=
  let desired := if showReadingTime then ("true").data else ("false").data
  match findCMBlock content with
  | some (pre, head, body, post) =>
    let body2 := subBoolAll (("showReadingTime").data) desired body
    let body3 := subBoolAll (("showComma").data) desired body2
    pre ++ head ++ body3 ++ ("\x7d").data ++ post
  | none => content

/-- First boolean field named `name` in a text (used to read the patched
artifact back in the theorems). -/
def readBoolField (name : List Char) : List Char → Option Bool
  | [] => none
  | c :: rest =>
    match matchBoolField name (c :: rest) with
    | some (_, b, _) => some b
    | none => readBoolField name rest

/-! ## Build orchestration (`build_section_site`)

`build_section_site` performs a full scaffold (re)install exactly when
`full_rebuild` is set or no output directory exists for the section; the
scaffold-lifetime patches run only in that branch.  The content tree is
cleared and re-merged on every build, and the reading-time patch (with the
other always-on patches) runs on every build. -/

/-- Names of the patch operations run only on scaffold (re)install, in the
order they appear inside the `if full_rebuild or not output_dir.exists()`
branch. -/
def scaffoldLifetimePatchNames : List String :=
  ["remove_graph_from_right", "install_locales",
   "adjust_created_modified_priority", "patch_folder_page_title",
   "patch_folder_content_defaults", "patch_date_format",
   "patch_list_page_meta_width", "patch_internal_link_highlight",
   "append_transclusion_styles", "patch_render_page_transclude_title",
   "patch_typography_fonts"]

/-- Names of the operations run on every build, in source order. -/
def alwaysPatchNames : List String :=
  ["patch_content_meta_options", "install_patched_backlinks",
   "update_quartz_layout", "inject_custom_footer_components",
   "update_page_title", "apply_color_scheme_to_quartz_config",
   "toggle_custom_og_images"]

/-- Observable effects of one `build_section_site` run. -/
structure BuildTrace where
  scaffoldReinstalled : Bool
  scaffoldPatches : List String
  contentMeta : List Char
  contentTree : FsTree
  alwaysPatches : List String

/-- The orchestration of `build_section_site`: the scaffold branch decision,
the scaffold-lifetime patches it gates, the always-applied reading-time
patch on the `ContentMeta.tsx` artifact, and the unconditional content
re-merge. -/
def buildSectionSiteTrace (fullRebuild outputDirExists : Bool) (sec : Nat)
    (cfg : MergeConfig) (courseTree sectionTree : FsTree)
    (sectionDirs : List String) (showReadingTime : Bool)
    (contentMetaSrc : List Char) : BuildTrace :=
  let scaffold := fullRebuild || !outputDirExists
  { scaffoldReinstalled := scaffold
    scaffoldPatches := if scaffold then scaffoldLifetimePatchNames else []
    contentMeta := patchContentMetaOptions contentMetaSrc showReadingTime
    contentTree := buildContentTree sec cfg courseTree sectionTree sectionDirs
    alwaysPatches := alwaysPatchNames }

/-- The pristine `ContentMeta.tsx` defaults block as distributed. -/
def sampleContentMeta : List Char :=
  ("import \x7b formatDate \x7d from \"./Date\"\n\nconst defaultOptions: ContentMetaOptions = \x7b\n  showReadingTime: true,\n  showComma: true,\n\x7d\n\nexport default ContentMeta\n").data

set_option maxRecDepth 16384 in
/-- C6: with an existing scaffold directory and `full_rebuild = False`, no
scaffold-lifetime patch (typography, date format, folder-page title and
defaults, base-stylesheet, transclusion-title, ...) is reapplied, the
content tree is still fully re-merged from the latest configuration, and the
always-on reading-time patch runs, setting both `showReadingTime` and
`showComma` in the `ContentMeta` defaults block to the configured value. -/
theorem reuse_skips_scaffold_patches (sec : Nat) (cfg : MergeConfig)
    (courseTree sectionTree : FsTree) (sectionDirs : List String)
    (flag : Bool) :
    (buildSectionSiteTrace false true sec cfg courseTree sectionTree
        sectionDirs flag sampleContentMeta).scaffoldReinstalled = false ∧
    (buildSectionSiteTrace false true sec cfg courseTree sectionTree
        sectionDirs flag sampleContentMeta).scaffoldPatches = [] ∧
    ("patch_typography_fonts") ∈ scaffoldLifetimePatchNames ∧
    ("patch_date_format") ∈ scaffoldLifetimePatchNames ∧
    (buildSectionSiteTrace false true sec cfg courseTree sectionTree
        sectionDirs flag sampleContentMeta).alwaysPatches = alwaysPatchNames ∧
    ("patch_content_meta_options") ∈ alwaysPatchNames ∧
    (buildSectionSiteTrace false true sec cfg courseTree sectionTree
        sectionDirs flag sampleContentMeta).contentTree
      = buildContentTree sec cfg courseTree sectionTree sectionDirs ∧
    (buildSectionSiteTrace false true sec cfg courseTree sectionTree
        sectionDirs flag sampleContentMeta).contentMeta
      = patchContentMetaOptions sampleContentMeta flag ∧
    readBoolField (("showReadingTime").data)
      (patchContentMetaOptions sampleContentMeta flag) = some flag ∧
    readBoolField (("showComma").data)
      (patchContentMetaOptions sampleContentMeta flag) = some flag := by
  cases flag <;>
    exact ⟨rfl, rfl, by decide, by decide, rfl, by decide, rfl, rfl,
      by decide, by decide⟩

/-! ## Sidebar omit-set patch (`update_quartz_layout` in build_site.py)

Hidden item names ending in `.md` lose the extension; the replacement line
is rebuilt from the normalized list, and the omit-declaration pattern is
substituted at every non-overlapping occurrence (`subn` with `count=0`),
keeping the `CQ4T-OMIT-ANCHOR` comment line when it sits directly above.
When no occurrence matches, the line is inserted after the imports block. -/

/-- `[ \t]*`. -/
def skipHTab (s : List Char) : List Char :=
  s.dropWhile (fun c => c = ' ' || c = '\t')

/-- `[ \t]+`. -/
def skipHTabPlus (s : List Char) : Option (List Char) :=
  match s with
  | c :: r => if c = ' ' || c = '\t' then some (skipHTab r) else none
  | [] => none

/-- `(?:<[^>]*>)?` — greedy optional generic argument, matching empty when
no closing angle bracket follows. -/
def matchGeneric (s : List Char) : List Char :=
  match s with
  | '<' :: r =>
    (match r.dropWhile (fun c => c ≠ '>') with
     | '>' :: r2 => r2
     | _ => s)
  | _ => s

/-- The lazy tail `[\s\S]*?\][ \t]*\)`: stop at the first closing square
bracket followed (after spaces/tabs) by a closing parenthesis; a bracket
without that continuation is absorbed into the lazy body. -/
def lazyCloseBracketParen : List Char → Option (List Char)
  | [] => none
  | c :: r =>
    if c = ']' then
      match dropLitC (")").data (skipHTab r) with
      | some r2 => some r2
      | none => lazyCloseBracketParen r
    else lazyCloseBracketParen r

/-- `[ \t]*;?` after the closing parenthesis. -/
def tailAfterParen (s : List Char) : List Char :=
  match skipHTab s with
  | ';' :: r => r
  | s1 => s1

/-- The core omit pattern, anchored at the head of `s`:
`[ \t]*const[ \t]+omit[ \t]*=[ \t]*new[ \t]+Set(?:<[^>]*>)?[ \t]*\([ \t]*\[`
then the lazy tail; returns the remainder after the whole match. -/
def matchOmitCore (s : List Char) : Option (List Char) :=
  (dropLitC ("const").data (skipHTab s)).bind (fun s1 =>
  (skipHTabPlus s1).bind (fun s2 =>
  (dropLitC ("omit").data s2).bind (fun s3 =>
  (dropLitC ("=").data (skipHTab s3)).bind (fun s4 =>
  (dropLitC ("new").data (skipHTab s4)).bind (fun s5 =>
  (skipHTabPlus s5).bind (fun s6 =>
  (dropLitC ("Set").data s6).bind (fun s7 =>
  (dropLitC ("(").data (skipHTab (matchGeneric s7))).bind (fun s8 =>
  (dropLitC ("[").data (skipHTab s8)).bind (fun s9 =>
  (lazyCloseBracketParen s9).map tailAfterParen)))))))))

/-- `.*?\n` with DOTALL: lazily up to and including the first newline. -/
def lazyToNewline : List Char → Option (List Char)
  | [] => none
  | c :: r => if c = '\n' then some r else lazyToNewline r

/-- The optional anchor group `^[ \t]*//[ \t]*CQ4T-OMIT-ANCHOR:.*?\n`
(kept verbatim by the replacement); returns the anchor text and remainder. -/
def matchOmitAnchor (s : List Char) : Option (List Char × List Char) :=
  ((dropLitC ("//").data (skipHTab s)).bind (fun s1 =>
   (dropLitC ("CQ4T-OMIT-ANCHOR:").data (skipHTab s1)).bind (fun s2 =>
   lazyToNewline s2))).map (fun r => (s.take (s.length - r.length), r))

/-- One attempt of the full pattern at a position: the greedy optional
anchor is tried first (it can only match at a line start), backtracking to
the anchor-less shape; returns the kept anchor text and the remainder. -/
def tryOmitAt (lineStart : Bool) (s : List Char) : Option (List Char × List Char) :=
  let noAnchor := (matchOmitCore s).map (fun r => (([] : List Char), r))
  if lineStart then
    match matchOmitAnchor s with
    | some (anc, r1) =>
      match matchOmitCore r1 with
      | some r2 => some (anc, r2)
      | none => noAnchor
    | none => noAnchor
  else noAnchor

/-- `pattern_omit.subn(_repl, content, count=0)`: replace every
non-overlapping leftmost match, tracking line starts for the `^` anchor;
returns the new text and the replacement count.  Fuel-structured (each match
consumes at least the `const` literal, so fuel equal to the text length
never runs out). -/
def omitScanAux (repl : List Char) : Nat → Bool → List Char → List Char × Nat
  | _, _, [] => ([], 0)
  | 0, _, s => (s, 0)
  | fuel + 1, lineStart, c :: rest =>
    match tryOmitAt lineStart (c :: rest) with
    | some (anc, r) =>
      let matched := (c :: rest).take ((c :: rest).length - r.length)
      let p := omitScanAux repl fuel (matched.getLast? == some '\n') r
      (anc ++ repl ++ p.1, p.2 + 1)
    | none =>
      let p := omitScanAux repl fuel (c == '\n') rest
      (c :: p.1, p.2)

/-- `item[:-3] if item.endswith(".md") else item` over the hidden list. -/
def normalizedHidden (hidden : List String) : List String :=
  hidden.map (fun item =>
    if endsWithChars ((".md").data) item.data then
      String.mk (item.data.take (item.data.length - 3))
    else item)

/-- `", ".join(f'"{n}"' for n in normalized_hidden)`. -/
def omitFormatted (ns : List String) : List Char :=
  List.intercalate ((", ").data)
    (ns.map (fun n => ("\"").data ++ n.data ++ ("\"").data))

/-- `f"const omit = new Set([{formatted}])"`. -/
def omitReplacementLine (hidden : List String) : List Char :=
  ("const omit = new Set([").data ++ omitFormatted (normalizedHidden hidden)
    ++ ("])").data

/-- `import .*?;` lazily up to the first semicolon. -/
def lazyToSemicolon : List Char → Option (List Char)
  | [] => none
  | c :: r => if c = ';' then some r else lazyToSemicolon r

/-- One `(?:import .*?;\s*)` group. -/
def oneImport (s : List Char) : Option (List Char) :=
  (dropLitC ("import ").data s).bind (fun s1 =>
  (lazyToSemicolon s1).map (fun s2 => s2.dropWhile isPySpace))

/-- Greedy repetition of further import groups (fuel-structured). -/
def importsRunAux : Nat → List Char → List Char
  | 0, s => s
  | fuel + 1, s =>
    match oneImport s with
    | some r => importsRunAux fuel r
    | none => s

/-- `(?:import .*?;\s*)+` anchored at the head of `s`. -/
def importsRun (s : List Char) : Option (List Char) :=
  match oneImport s with
  | some r => some (importsRunAux r.length r)
  | none => none

/-- `re.search(r'^(?:import .*?;\s*)+', content)` with MULTILINE: the first
line-start position where the imports pattern matches; returns the split of
the content at `m.end()`. -/
def findImportsSplit : Bool → List Char → Option (List Char × List Char)
  | _, [] => none
  | lineStart, c :: rest =>
    if lineStart then
      match importsRun (c :: rest) with
      | some r => some ((c :: rest).take ((c :: rest).length - r.length), r)
      | none =>
        (findImportsSplit (c == '\n') rest).map (fun p => (c :: p.1, p.2))
    else
      (findImportsSplit (c == '\n') rest).map (fun p => (c :: p.1, p.2))

/-- `update_quartz_layout` as a pure text transformation: rewrite every omit
declaration from the hidden list, or insert a fresh declaration after the
imports block (or at the very top) when none matched; also returns the
number of replaced occurrences. -/
def updateQuartzLayout (content : List Char) (hidden : List String) :
    List Char × Nat :=
  let repl := omitReplacementLine hidden
  let p := omitScanAux repl content.length true content
  if p.2 = 0 then
    match findImportsSplit true content with
    | some (before, after) =>
      (before ++ ("\n").data ++ repl ++ ("\n").data ++ after, 0)
    | none => (repl ++ ("\n").data ++ content, 0)
  else p

/-- A layout artifact revision carrying two omit declarations (one plain,
one with a generic argument and a trailing semicolon). -/
def demoLayout : List Char :=
  ("import \x7b PageLayout \x7d from \"./quartz/cfg\";\n\nconst omit = new Set([\"Old\"])\n\nexport const sharedPageComponents = 1\n\nconst omit = new Set<string>([ \"Stale\", \"Things\" ]);\n\nexport const defaultContentPageLayout = 2\n").data

set_option maxRecDepth 32768 in
/-- C7: hidden item names ending in `.md` have the extension stripped before
insertion (`["Notes.md", "Media"]` produces the omit set
`"Notes", "Media"`), and every occurrence of the omit declaration in the
artifact is replaced, not just the first: on an artifact with two
declarations, both are rewritten to the freshly formatted line (for every
hidden list) and the reported replacement count is 2. -/
theorem omit_set_patch (hidden : List String) :
    normalizedHidden ["Notes.md", "Media"] = ["Notes", "Media"] ∧
    omitReplacementLine ["Notes.md", "Media"]
      = ("const omit = new Set([\"Notes\", \"Media\"])").data ∧
    updateQuartzLayout demoLayout hidden
      = (("import \x7b PageLayout \x7d from \"./quartz/cfg\";\n\n").data
          ++ (omitReplacementLine hidden
          ++ (("\n\nexport const sharedPageComponents = 1\n\n").data
          ++ (omitReplacementLine hidden
          ++ ("\n\nexport const defaultContentPageLayout = 2\n").data))), 2) :=
  ⟨by decide, by decide, by rfl⟩
